import Mathlib

/-!
# Aggregate function registry of `velox/exec/Aggregate.cpp`

A shallow embedding of the aggregate-function catalog and of the creation
dispatcher, followed by theorems about them.

Modelling decisions.

* The two function-local statics `functions()` and `AggregateFunctions()` are the
  process-wide state; together with the part of the world that factories may
  touch they form the record `Process`, which is passed explicitly.
* `std::unordered_map<std::string, FunctionEntry>` is a list of key/value pairs
  whose keys are pairwise distinct (`FunctionMap`); iteration order is not
  observable through the functions of this file.
* A factory is a C++ callable: it may have side effects, throw, or return a null
  `unique_ptr`. It is a function from its three arguments and the world `W` to
  an outcome and a new world. Factories and the legacy resolver act on `W`
  only: they do not call back into the registration functions of this file.
* `std::unique_ptr<Aggregate>` is `Option Agg` (`none` is the null pointer); a
  thrown exception is `Except.error`.
* `std::shared_ptr<AggregateFunctionSignature>` and `TypePtr` are the abstract
  types `Sig` and `Ty`.
* A use of the public interface over time is a list of `Call`s, run in order by
  `runCalls`; `lastRegistered` is the specification-side reading of such a list.
-/

namespace velox.exec

/-- Modelled from the spec: the enum `core::AggregationNode::Step` is declared in a
header that is not part of this file. The spec lists its values as Partial,
Intermediate, Final and Single; the source names three of them `kPartial`,
`kSingle` and `kIntermediate`. -/
inductive Step where
  | kPartial
  | kIntermediate
  | kFinal
  | kSingle
  deriving DecidableEq, Repr

/-- Source lines 22-25. -/
def isRawInput (step : Step) : Bool :=
  step == Step.kPartial || step == Step.kSingle

/-- Source lines 27-30. -/
def isPartialOutput (step : Step) : Bool :=
  step == Step.kPartial || step == Step.kIntermediate

/-- Exceptions that can leave the functions of this file: the user error raised by
`VELOX_USER_FAIL`, and any other exception raised by a factory or by the legacy
resolver. -/
inductive Exception where
  | veloxUserError (message : String)
  | other (what : String)
  deriving DecidableEq, Repr

/-- Modelled from the spec: the macro `VELOX_USER_FAIL` is defined in a header that is
not part of this file. Per the spec it fails with a user-facing error whose
message is the format string with its placeholder replaced by the argument; the
argument here is the already formatted message. -/
def VELOX_USER_FAIL (message : String) : Exception :=
  Exception.veloxUserError message

/-- The format string of source line 89, up to its placeholder. -/
def notRegisteredMessage : String :=
  "Aggregate function not registered: "

/-- The result of a call that returns `std::unique_ptr<Aggregate>`: an exception, a
null pointer (`none`) or an operator. -/
abbrev Outcome (Agg : Type) : Type :=
  Except Exception (Option Agg)

/-- The callable type `AggregateFunctionFactory`: called with
`(step, argTypes, resultType)`, acting on the world `W`. -/
abbrev AggregateFunctionFactory (Ty Agg W : Type) : Type :=
  Step → List Ty → Ty → W → Outcome Agg × W

/-- Source lines 34-37. -/
structure FunctionEntry (Sig Ty Agg W : Type) where
  signatures : List Sig
  factory : AggregateFunctionFactory Ty Agg W

/-- The key/value pairs of a map, found by `std::unordered_map::find`: the value
stored under `key`, if any. -/
def findEntry {V : Type} : List (String × V) → String → Option V
  | [], _ => none
  | (k, v) :: rest, key => if k = key then some v else findEntry rest key

/-- The effect of `m[key] = value` on the key/value pairs: the value under `key` is
replaced when the key is present, and a new pair is added otherwise. -/
def assignEntry {V : Type} : List (String × V) → String → V → List (String × V)
  | [], key, value => [(key, value)]
  | (k, v) :: rest, key, value =>
    if k = key then (key, value) :: rest else (k, v) :: assignEntry rest key value

/-- The number of pairs stored under `key` (`std::unordered_map::count`). -/
def countEntry {V : Type} (entries : List (String × V)) (key : String) : Nat :=
  (entries.filter (fun p => decide (p.1 = key))).length

/-! Assignment keeps the keys distinct; `FunctionMap.assign` below needs this. -/

theorem keys_assignEntry {V : Type} (entries : List (String × V)) (key : String)
    (value : V) :
    (assignEntry entries key value).map Prod.fst =
      if key ∈ entries.map Prod.fst then entries.map Prod.fst
      else entries.map Prod.fst ++ [key] := by
  induction entries with
  | nil => simp [assignEntry]
  | cons p rest ih =>
    obtain ⟨k, v⟩ := p
    by_cases hk : k = key
    · subst hk
      simp [assignEntry]
    · have hk2 : ¬ key = k := fun h => hk h.symm
      by_cases hm : key ∈ rest.map Prod.fst
      · simp only [assignEntry, if_neg hk, List.map_cons, ih, if_pos hm,
          List.mem_cons, hm, or_true, if_true]
      · simp only [assignEntry, if_neg hk, List.map_cons, ih, if_neg hm,
          List.mem_cons, hm, hk2, or_false, if_false, List.cons_append]

theorem nodup_assignEntry {V : Type} (entries : List (String × V)) (key : String)
    (value : V) (h : (entries.map Prod.fst).Nodup) :
    ((assignEntry entries key value).map Prod.fst).Nodup := by
  rw [keys_assignEntry]
  split
  · exact h
  · rename_i hm
    rw [List.nodup_append]
    refine ⟨h, List.nodup_singleton key, ?_⟩
    intro a ha hb
    rw [List.mem_singleton] at hb
    subst hb
    exact hm ha

/-- Source line 39: `std::unordered_map<std::string, FunctionEntry>`. Keys are
unique. -/
structure FunctionMap (Sig Ty Agg W : Type) where
  entries : List (String × FunctionEntry Sig Ty Agg W)
  keysUnique : (entries.map Prod.fst).Nodup

/-- The map before any registration: the initial value of the static of source
line 42. -/
def FunctionMap.empty {Sig Ty Agg W : Type} : FunctionMap Sig Ty Agg W :=
  ⟨[], List.nodup_nil⟩

/-- See `std::unordered_map::find`. -/
def FunctionMap.find {Sig Ty Agg W : Type} (m : FunctionMap Sig Ty Agg W)
    (name : String) : Option (FunctionEntry Sig Ty Agg W) :=
  findEntry m.entries name

/-- See `operator[]` followed by assignment, as in source line 62. -/
def FunctionMap.assign {Sig Ty Agg W : Type} (m : FunctionMap Sig Ty Agg W)
    (name : String) (entry : FunctionEntry Sig Ty Agg W) : FunctionMap Sig Ty Agg W :=
  ⟨assignEntry m.entries name entry, nodup_assignEntry m.entries name entry m.keysUnique⟩

/-- The keys of the map. -/
def FunctionMap.keys {Sig Ty Agg W : Type} (m : FunctionMap Sig Ty Agg W) : List String :=
  m.entries.map Prod.fst

/-- See `std::unordered_map::count`. -/
def FunctionMap.count {Sig Ty Agg W : Type} (m : FunctionMap Sig Ty Agg W)
    (name : String) : Nat :=
  countEntry m.entries name

/-- Modelled from the spec: the class `AggregateFunctionRegistry` (the legacy catalog)
is declared in a header that is not part of this file. The spec treats it as an
opaque resolver whose creation routine takes `(name, step, argTypes, resultType)`
and returns either an operator or a null result. -/
structure AggregateFunctionRegistry (Ty Agg W : Type) where
  Create : String → Step → List Ty → Ty → W → Outcome Agg × W

/-- The process-wide state: the static of `functions()` (source lines 41-44), the
static of `AggregateFunctions()` (source lines 94-97), and the world that
factories act on. -/
structure Process (Sig Ty Agg W : Type) where
  functions : FunctionMap Sig Ty Agg W
  AggregateFunctions : AggregateFunctionRegistry Ty Agg W
  world : W

section api

variable {Sig Ty Agg W : Type}

/-- Source lines 46-55. The pointer to the stored entry is the entry itself. -/
def getAggregateFunctionEntry (s : Process Sig Ty Agg W) (name : String) :
    Option (FunctionEntry Sig Ty Agg W) :=
  match s.functions.find name with
  | some entry => some entry
  | none => none

/-- Source lines 58-64. -/
def registerAggregateFunction (name : String) (signatures : List Sig)
    (factory : AggregateFunctionFactory Ty Agg W) (s : Process Sig Ty Agg W) :
    Bool × Process Sig Ty Agg W :=
  (true, { s with functions := s.functions.assign name ⟨signatures, factory⟩ })

/-- Source lines 66-73. -/
def getAggregateFunctionSignatures (s : Process Sig Ty Agg W) (name : String) :
    Option (List Sig) :=
  match getAggregateFunctionEntry s name with
  | some func => some func.signatures
  | none => none

/-- Source lines 75-92. The unused local `message` of line 88 has no effect. -/
def Aggregate.create (name : String) (step : Step) (argTypes : List Ty)
    (resultType : Ty) (s : Process Sig Ty Agg W) :
    Outcome Agg × Process Sig Ty Agg W :=
  match getAggregateFunctionEntry s name with
  | some func =>
    let r := func.factory step argTypes resultType s.world
    (r.1, { s with world := r.2 })
  | none =>
    let r := s.AggregateFunctions.Create name step argTypes resultType s.world
    match r.1 with
    | Except.error e => (Except.error e, { s with world := r.2 })
    | Except.ok none =>
      (Except.error (VELOX_USER_FAIL (notRegisteredMessage ++ name)),
        { s with world := r.2 })
    | Except.ok (some func) => (Except.ok (some func), { s with world := r.2 })

end api

/-! ## Concrete instances

Signatures, types and operators are numbers; the world is the log of the calls
made to factories and to the legacy resolver. -/

/-- A factory that records its call in the log and returns `result`. -/
def loggingFactory (tag : String) (result : Outcome Nat) :
    AggregateFunctionFactory Nat Nat (List String) :=
  fun _ _ _ log => (result, log ++ [tag])

/-- A legacy catalog that knows the single name `bar`, for which it builds the
operator `7`; for any other name it returns null. Each call is logged. -/
def sampleLegacy : AggregateFunctionRegistry Nat Nat (List String) :=
  ⟨fun name _ _ _ log =>
    (if name = "bar" then Except.ok (some 7) else Except.ok none, log ++ ["legacy"])⟩

/-- A process in which nothing has been registered in the new catalog. -/
def freshProcess : Process Nat Nat Nat (List String) :=
  ⟨FunctionMap.empty, sampleLegacy, []⟩

/-- The fresh process after `foo` has been registered with two signatures. -/
def fooProcess : Process Nat Nat Nat (List String) :=
  (registerAggregateFunction "foo" [1, 2] (loggingFactory "foo" (Except.ok (some 3)))
    freshProcess).2

/-- The fresh process after `bad` has been registered with a factory that throws and
`nil` with a factory that returns a null pointer. -/
def failingProcess : Process Nat Nat Nat (List String) :=
  (registerAggregateFunction "nil" [] (loggingFactory "nil" (Except.ok none))
    (registerAggregateFunction "bad" [1]
      (loggingFactory "bad" (Except.error (Exception.other "unsupported type")))
      freshProcess).2).2

/-- One call of the public interface, with its arguments. -/
inductive Call (Sig Ty Agg W : Type) where
  | register (name : String) (signatures : List Sig)
      (factory : AggregateFunctionFactory Ty Agg W)
  | getSignatures (name : String)
  | create (name : String) (step : Step) (argTypes : List Ty) (resultType : Ty)

/-- The process state after one call. -/
def Call.apply {Sig Ty Agg W : Type} (c : Call Sig Ty Agg W) (s : Process Sig Ty Agg W) :
    Process Sig Ty Agg W :=
  match c with
  | Call.register name signatures factory =>
    (registerAggregateFunction name signatures factory s).2
  | Call.getSignatures _ => s
  | Call.create name step argTypes resultType =>
    (Aggregate.create name step argTypes resultType s).2

/-- The process state after a sequence of calls, made in the order of the list. -/
def runCalls {Sig Ty Agg W : Type} (calls : List (Call Sig Ty Agg W))
    (s : Process Sig Ty Agg W) : Process Sig Ty Agg W :=
  calls.foldl (fun state c => c.apply state) s

/-- Follows the words of the specification, not the source: the entry given by the
most recent `registerAggregateFunction` call for `name` in a sequence of calls,
if there is such a call. -/
def lastRegistered {Sig Ty Agg W : Type} (calls : List (Call Sig Ty Agg W))
    (name : String) : Option (FunctionEntry Sig Ty Agg W) :=
  calls.foldl
    (fun latest c =>
      match c with
      | Call.register n signatures factory =>
        if n = name then some ⟨signatures, factory⟩ else latest
      | Call.getSignatures _ => latest
      | Call.create _ _ _ _ => latest)
    none

/-! ## Lemmas on the key/value pairs -/

theorem findEntry_assignEntry_same {V : Type} (entries : List (String × V))
    (key : String) (value : V) :
    findEntry (assignEntry entries key value) key = some value := by
  induction entries with
  | nil => simp [assignEntry, findEntry]
  | cons p rest ih =>
    obtain ⟨k, v⟩ := p
    by_cases hk : k = key
    · simp [assignEntry, findEntry, hk]
    · simp [assignEntry, findEntry, hk, ih]

theorem findEntry_assignEntry_other {V : Type} (entries : List (String × V))
    (key other : String) (value : V) (h : other ≠ key) :
    findEntry (assignEntry entries key value) other = findEntry entries other := by
  induction entries with
  | nil =>
    have h2 : ¬ key = other := fun e => h e.symm
    simp [assignEntry, findEntry, h2]
  | cons p rest ih =>
    obtain ⟨k, v⟩ := p
    by_cases hk : k = key
    · have h2 : ¬ key = other := fun e => h e.symm
      simp [assignEntry, findEntry, hk, h2]
    · by_cases ho : k = other
      · subst ho
        simp [assignEntry, findEntry, hk]
      · simp [assignEntry, findEntry, hk, ho, ih]

theorem findEntry_eq_none_iff {V : Type} (entries : List (String × V)) (key : String) :
    findEntry entries key = none ↔ key ∉ entries.map Prod.fst := by
  induction entries with
  | nil => simp [findEntry]
  | cons p rest ih =>
    obtain ⟨k, v⟩ := p
    by_cases hk : k = key
    · simp [findEntry, hk]
    · have h2 : ¬ key = k := fun e => hk e.symm
      simp only [findEntry, if_neg hk, ih, List.map_cons, List.mem_cons, h2, false_or]

theorem findEntry_mem {V : Type} (entries : List (String × V)) (key : String) (value : V)
    (h : findEntry entries key = some value) : (key, value) ∈ entries := by
  induction entries with
  | nil => simp [findEntry] at h
  | cons p rest ih =>
    obtain ⟨k, v⟩ := p
    by_cases hk : k = key
    · simp only [findEntry, if_pos hk, Option.some.injEq] at h
      simp [hk, h]
    · simp only [findEntry, if_neg hk] at h
      exact List.mem_cons_of_mem _ (ih h)

theorem findEntry_of_mem {V : Type} (entries : List (String × V)) (key : String) (value : V)
    (hnodup : (entries.map Prod.fst).Nodup) (h : (key, value) ∈ entries) :
    findEntry entries key = some value := by
  induction entries with
  | nil => simp at h
  | cons p rest ih =>
    obtain ⟨k, v⟩ := p
    rw [List.map_cons, List.nodup_cons] at hnodup
    rcases List.mem_cons.1 h with heq | hrest
    · rw [Prod.mk.injEq] at heq
      simp [findEntry, heq.1, heq.2]
    · have hk : ¬ k = key := by
        intro e
        apply hnodup.1
        rw [e]
        exact List.mem_map.2 ⟨(key, value), hrest, rfl⟩
      simp only [findEntry, if_neg hk]
      exact ih hnodup.2 hrest

theorem assignEntry_assignEntry_same {V : Type} (entries : List (String × V))
    (key : String) (value other : V) :
    assignEntry (assignEntry entries key other) key value =
      assignEntry entries key value := by
  induction entries with
  | nil => simp [assignEntry]
  | cons p rest ih =>
    obtain ⟨k, v⟩ := p
    by_cases hk : k = key
    · simp [assignEntry, hk]
    · simp [assignEntry, hk, ih]

theorem mem_keys_assignEntry_iff {V : Type} (entries : List (String × V))
    (key other : String) (value : V) :
    other ∈ (assignEntry entries key value).map Prod.fst ↔
      other ∈ entries.map Prod.fst ∨ other = key := by
  rw [keys_assignEntry]
  split
  · rename_i hm
    constructor
    · exact fun h => Or.inl h
    · rintro (h | h)
      · exact h
      · rw [h]
        exact hm
  · simp

theorem countEntry_eq_count_keys {V : Type} (entries : List (String × V)) (key : String) :
    countEntry entries key = (entries.map Prod.fst).count key := by
  induction entries with
  | nil => simp [countEntry]
  | cons p rest ih =>
    obtain ⟨k, v⟩ := p
    unfold countEntry at ih
    by_cases hk : k = key
    · simp [countEntry, List.filter_cons, hk, ih]
    · simp [countEntry, List.filter_cons, hk, ih, List.count_cons]

theorem mem_keys_assignEntry {V : Type} (entries : List (String × V)) (key : String)
    (value : V) : key ∈ (assignEntry entries key value).map Prod.fst := by
  rw [keys_assignEntry]
  split
  · assumption
  · simp

section api_lemmas

variable {Sig Ty Agg W : Type}

theorem getAggregateFunctionEntry_eq_find (s : Process Sig Ty Agg W) (name : String) :
    getAggregateFunctionEntry s name = findEntry s.functions.entries name := by
  unfold getAggregateFunctionEntry FunctionMap.find
  cases findEntry s.functions.entries name <;> rfl

theorem getAggregateFunctionEntry_register_same (s : Process Sig Ty Agg W)
    (name : String) (signatures : List Sig) (factory : AggregateFunctionFactory Ty Agg W) :
    getAggregateFunctionEntry (registerAggregateFunction name signatures factory s).2 name =
      some ⟨signatures, factory⟩ := by
  rw [getAggregateFunctionEntry_eq_find]
  exact findEntry_assignEntry_same _ _ _

theorem getAggregateFunctionEntry_register_other (s : Process Sig Ty Agg W)
    (name other : String) (signatures : List Sig)
    (factory : AggregateFunctionFactory Ty Agg W) (h : other ≠ name) :
    getAggregateFunctionEntry (registerAggregateFunction name signatures factory s).2 other =
      getAggregateFunctionEntry s other := by
  rw [getAggregateFunctionEntry_eq_find, getAggregateFunctionEntry_eq_find]
  exact findEntry_assignEntry_other _ _ _ _ h

theorem getAggregateFunctionEntry_eq_none_iff (s : Process Sig Ty Agg W) (name : String) :
    getAggregateFunctionEntry s name = none ↔ name ∉ s.functions.keys := by
  rw [getAggregateFunctionEntry_eq_find]
  exact findEntry_eq_none_iff _ _

theorem getAggregateFunctionEntry_of_mem_keys (s : Process Sig Ty Agg W) (name : String)
    (h : name ∈ s.functions.keys) :
    ∃ entry, getAggregateFunctionEntry s name = some entry ∧
      (name, entry) ∈ s.functions.entries := by
  cases hfind : getAggregateFunctionEntry s name with
  | none => exact absurd h ((getAggregateFunctionEntry_eq_none_iff s name).1 hfind)
  | some entry =>
    refine ⟨entry, rfl, ?_⟩
    rw [getAggregateFunctionEntry_eq_find] at hfind
    exact findEntry_mem _ _ _ hfind

theorem getAggregateFunctionEntry_of_mem (s : Process Sig Ty Agg W) (name : String)
    (entry : FunctionEntry Sig Ty Agg W) (h : (name, entry) ∈ s.functions.entries) :
    getAggregateFunctionEntry s name = some entry := by
  rw [getAggregateFunctionEntry_eq_find]
  exact findEntry_of_mem _ _ _ s.functions.keysUnique h

theorem create_of_entry (s : Process Sig Ty Agg W) (name : String) (step : Step)
    (argTypes : List Ty) (resultType : Ty) (entry : FunctionEntry Sig Ty Agg W)
    (h : getAggregateFunctionEntry s name = some entry) :
    Aggregate.create name step argTypes resultType s =
      ((entry.factory step argTypes resultType s.world).1,
        { s with world := (entry.factory step argTypes resultType s.world).2 }) := by
  unfold Aggregate.create
  rw [h]

theorem create_functions (s : Process Sig Ty Agg W) (name : String) (step : Step)
    (argTypes : List Ty) (resultType : Ty) :
    (Aggregate.create name step argTypes resultType s).2.functions = s.functions ∧
      (Aggregate.create name step argTypes resultType s).2.AggregateFunctions =
        s.AggregateFunctions := by
  unfold Aggregate.create
  cases getAggregateFunctionEntry s name with
  | some entry => exact ⟨rfl, rfl⟩
  | none =>
    simp only []
    split <;> exact ⟨rfl, rfl⟩

theorem getAggregateFunctionEntry_congr (s t : Process Sig Ty Agg W) (name : String)
    (h : t.functions = s.functions) :
    getAggregateFunctionEntry t name = getAggregateFunctionEntry s name := by
  rw [getAggregateFunctionEntry_eq_find, getAggregateFunctionEntry_eq_find, h]

theorem getAggregateFunctionSignatures_congr (s t : Process Sig Ty Agg W) (name : String)
    (h : getAggregateFunctionEntry t name = getAggregateFunctionEntry s name) :
    getAggregateFunctionSignatures t name = getAggregateFunctionSignatures s name := by
  unfold getAggregateFunctionSignatures
  rw [h]

theorem create_congr (s t : Process Sig Ty Agg W) (name : String) (step : Step)
    (argTypes : List Ty) (resultType : Ty)
    (hentry : getAggregateFunctionEntry t name = getAggregateFunctionEntry s name)
    (hlegacy : t.AggregateFunctions = s.AggregateFunctions) (hworld : t.world = s.world) :
    (Aggregate.create name step argTypes resultType t).1 =
        (Aggregate.create name step argTypes resultType s).1 ∧
      (Aggregate.create name step argTypes resultType t).2.world =
        (Aggregate.create name step argTypes resultType s).2.world := by
  unfold Aggregate.create
  rw [hentry, hlegacy, hworld]
  cases getAggregateFunctionEntry s name with
  | some entry => exact ⟨rfl, rfl⟩
  | none =>
    simp only []
    split <;> exact ⟨rfl, rfl⟩

theorem FunctionMap.eq_of_entries (m1 m2 : FunctionMap Sig Ty Agg W)
    (h : m1.entries = m2.entries) : m1 = m2 := by
  cases m1
  cases m2
  simp only [FunctionMap.mk.injEq]
  exact h

theorem register_register_same (s : Process Sig Ty Agg W) (name : String)
    (s1 s2 : List Sig) (f1 f2 : AggregateFunctionFactory Ty Agg W) :
    (registerAggregateFunction name s2 f2 (registerAggregateFunction name s1 f1 s).2).2 =
      (registerAggregateFunction name s2 f2 s).2 := by
  unfold registerAggregateFunction
  simp only [Process.mk.injEq, and_true]
  apply FunctionMap.eq_of_entries
  exact assignEntry_assignEntry_same _ _ _ _

theorem getAggregateFunctionSignatures_register_same (s : Process Sig Ty Agg W)
    (name : String) (signatures : List Sig) (factory : AggregateFunctionFactory Ty Agg W) :
    getAggregateFunctionSignatures
        (registerAggregateFunction name signatures factory s).2 name =
      some signatures := by
  unfold getAggregateFunctionSignatures
  rw [getAggregateFunctionEntry_register_same]

theorem count_register_same (s : Process Sig Ty Agg W) (name : String)
    (signatures : List Sig) (factory : AggregateFunctionFactory Ty Agg W) :
    (registerAggregateFunction name signatures factory s).2.functions.count name = 1 := by
  unfold FunctionMap.count
  rw [countEntry_eq_count_keys]
  exact List.count_eq_one_of_mem
    (registerAggregateFunction name signatures factory s).2.functions.keysUnique
    (mem_keys_assignEntry _ _ _)

theorem getAggregateFunctionEntry_register (s : Process Sig Ty Agg W) (name other : String)
    (signatures : List Sig) (factory : AggregateFunctionFactory Ty Agg W) :
    getAggregateFunctionEntry (registerAggregateFunction name signatures factory s).2 other =
      if name = other then some ⟨signatures, factory⟩
      else getAggregateFunctionEntry s other := by
  by_cases h : name = other
  · rw [if_pos h, ← h]
    exact getAggregateFunctionEntry_register_same s name signatures factory
  · rw [if_neg h]
    exact getAggregateFunctionEntry_register_other s name other signatures factory
      (fun e => h e.symm)

theorem getAggregateFunctionSignatures_eq_map (s : Process Sig Ty Agg W) (name : String) :
    getAggregateFunctionSignatures s name =
      (getAggregateFunctionEntry s name).map (fun entry => entry.signatures) := by
  unfold getAggregateFunctionSignatures
  cases getAggregateFunctionEntry s name <;> rfl

theorem runCalls_append_singleton (calls : List (Call Sig Ty Agg W))
    (c : Call Sig Ty Agg W) (s : Process Sig Ty Agg W) :
    runCalls (calls ++ [c]) s = c.apply (runCalls calls s) := by
  unfold runCalls
  rw [List.foldl_append]
  rfl

theorem getAggregateFunctionEntry_runCalls (calls : List (Call Sig Ty Agg W))
    (legacy : AggregateFunctionRegistry Ty Agg W) (w : W) (name : String) :
    getAggregateFunctionEntry (runCalls calls ⟨FunctionMap.empty, legacy, w⟩) name =
      lastRegistered calls name := by
  induction calls using List.reverseRecOn with
  | nil => rfl
  | append_singleton earlier c ih =>
    rw [runCalls_append_singleton]
    unfold lastRegistered
    rw [List.foldl_append]
    unfold lastRegistered at ih
    cases c with
    | register n signatures factory =>
      simp only [Call.apply, List.foldl_cons, List.foldl_nil]
      rw [getAggregateFunctionEntry_register, ih]
    | getSignatures n =>
      simp only [Call.apply, List.foldl_cons, List.foldl_nil]
      exact ih
    | create n step argTypes resultType =>
      simp only [Call.apply, List.foldl_cons, List.foldl_nil]
      rw [getAggregateFunctionEntry_congr _ _ name
        (create_functions _ n step argTypes resultType).1]
      exact ih

theorem lastRegistered_isSome_iff (calls : List (Call Sig Ty Agg W)) (name : String) :
    (lastRegistered calls name).isSome = true ↔
      ∃ (signatures : List Sig) (factory : AggregateFunctionFactory Ty Agg W),
        Call.register name signatures factory ∈ calls := by
  induction calls using List.reverseRecOn with
  | nil =>
    constructor
    · intro h
      cases h
    · rintro ⟨signatures, factory, hmem⟩
      exact absurd hmem (List.not_mem_nil _)
  | append_singleton earlier c ih =>
    unfold lastRegistered
    rw [List.foldl_append]
    unfold lastRegistered at ih
    cases c with
    | register n signatures factory =>
      simp only [List.foldl_cons, List.foldl_nil]
      by_cases hn : n = name
      · rw [if_pos hn, ← hn]
        constructor
        · intro _
          exact ⟨signatures, factory,
            List.mem_append_right _ (List.mem_singleton_self _)⟩
        · intro _
          rfl
      · rw [if_neg hn, ih]
        constructor
        · rintro ⟨sigs, f, hmem⟩
          exact ⟨sigs, f, List.mem_append_left _ hmem⟩
        · rintro ⟨sigs, f, hmem⟩
          rcases List.mem_append.1 hmem with h | h
          · exact ⟨sigs, f, h⟩
          · rw [List.mem_singleton] at h
            injection h with h1
            exact absurd h1.symm hn
    | getSignatures n =>
      simp only [List.foldl_cons, List.foldl_nil]
      rw [ih]
      constructor
      · rintro ⟨sigs, f, hmem⟩
        exact ⟨sigs, f, List.mem_append_left _ hmem⟩
      · rintro ⟨sigs, f, hmem⟩
        rcases List.mem_append.1 hmem with h | h
        · exact ⟨sigs, f, h⟩
        · rw [List.mem_singleton] at h
          cases h
    | create n step argTypes resultType =>
      simp only [List.foldl_cons, List.foldl_nil]
      rw [ih]
      constructor
      · rintro ⟨sigs, f, hmem⟩
        exact ⟨sigs, f, List.mem_append_left _ hmem⟩
      · rintro ⟨sigs, f, hmem⟩
        rcases List.mem_append.1 hmem with h | h
        · exact ⟨sigs, f, h⟩
        · rw [List.mem_singleton] at h
          cases h

end api_lemmas

/-! ## The claims -/

section claims

variable {Sig Ty Agg W : Type}

/-- C1: after `registerAggregateFunction(name, signatures, factory)`, the call
`Aggregate::create(name, step, argTypes, resultType)` is exactly the call
`factory(step, argTypes, resultType)`: it returns the factory's outcome unmodified
and has the factory's effect on the world, for every signature list (the
signatures are not consulted). -/
theorem create_after_register (s : Process Sig Ty Agg W) (name : String)
    (signatures : List Sig) (factory : AggregateFunctionFactory Ty Agg W)
    (step : Step) (argTypes : List Ty) (resultType : Ty) :
    Aggregate.create name step argTypes resultType
        (registerAggregateFunction name signatures factory s).2 =
      ((factory step argTypes resultType s.world).1,
        { (registerAggregateFunction name signatures factory s).2 with
          world := (factory step argTypes resultType s.world).2 }) := by
  unfold Aggregate.create
  rw [getAggregateFunctionEntry_register_same]
  rfl

/-- C2: when `name` is absent from the new catalog and the legacy resolver returns
null for `(name, step, argTypes, resultType)`, `Aggregate::create` fails with the
user error whose message is "Aggregate function not registered: " followed by
`name`; it does not return null, and the message ends with the name. -/
theorem create_unregistered_fails (s : Process Sig Ty Agg W) (name : String)
    (step : Step) (argTypes : List Ty) (resultType : Ty)
    (habsent : name ∉ s.functions.keys)
    (hnull : (s.AggregateFunctions.Create name step argTypes resultType s.world).1 =
      Except.ok none) :
    (Aggregate.create name step argTypes resultType s).1 =
        Except.error
          (Exception.veloxUserError ("Aggregate function not registered: " ++ name)) ∧
      (Aggregate.create name step argTypes resultType s).1 ≠ Except.ok none ∧
      List.IsSuffix name.data ("Aggregate function not registered: " ++ name).data := by
  have hnone := (getAggregateFunctionEntry_eq_none_iff s name).2 habsent
  have hval : (Aggregate.create name step argTypes resultType s).1 =
      Except.error
        (Exception.veloxUserError ("Aggregate function not registered: " ++ name)) := by
    unfold Aggregate.create
    rw [hnone]
    simp only [hnull]
    rfl
  refine ⟨hval, ?_, ?_⟩
  · rw [hval]
    intro h
    cases h
  · rw [String.data_append]
    exact List.suffix_append _ _

theorem create_unregistered_fails_witness :
    ("nonexistent" ∉ freshProcess.functions.keys ∧
      (freshProcess.AggregateFunctions.Create "nonexistent" Step.kSingle [5] 6
        freshProcess.world).1 = Except.ok none) ∧
    ((Aggregate.create "nonexistent" Step.kSingle [5] 6 freshProcess).1 =
        Except.error
          (Exception.veloxUserError
            ("Aggregate function not registered: " ++ "nonexistent")) ∧
      (Aggregate.create "nonexistent" Step.kSingle [5] 6 freshProcess).1 ≠
        Except.ok none ∧
      List.IsSuffix "nonexistent".data
        ("Aggregate function not registered: " ++ "nonexistent").data) :=
  ⟨⟨by simp [freshProcess, FunctionMap.keys, FunctionMap.empty],
      by simp [freshProcess, sampleLegacy]⟩,
    create_unregistered_fails freshProcess "nonexistent" Step.kSingle [5] 6
      (by simp [freshProcess, FunctionMap.keys, FunctionMap.empty])
      (by simp [freshProcess, sampleLegacy])⟩

/-- C3: last write wins for creation. After registering `name` with factory `f1` and
then with factory `f2`, `Aggregate::create(name, step, argTypes, resultType)` is
exactly the call `f2(step, argTypes, resultType)`: outcome and effect on the world
are those of `f2`, whatever `f1` is, so `f1` is not called. -/
theorem create_after_reregister (s : Process Sig Ty Agg W) (name : String)
    (s1 s2 : List Sig) (f1 f2 : AggregateFunctionFactory Ty Agg W)
    (step : Step) (argTypes : List Ty) (resultType : Ty) :
    Aggregate.create name step argTypes resultType
        (registerAggregateFunction name s2 f2
          (registerAggregateFunction name s1 f1 s).2).2 =
      ((f2 step argTypes resultType s.world).1,
        { (registerAggregateFunction name s2 f2
            (registerAggregateFunction name s1 f1 s).2).2 with
          world := (f2 step argTypes resultType s.world).2 }) := by
  unfold Aggregate.create
  rw [getAggregateFunctionEntry_register_same]
  rfl

/-- C4: round trip of signatures. After
`registerAggregateFunction(name, signatures, factory)`,
`getAggregateFunctionSignatures(name)` is present and equal to `signatures`, the
empty list included. -/
theorem signatures_after_register (s : Process Sig Ty Agg W) (name : String)
    (signatures : List Sig) (factory : AggregateFunctionFactory Ty Agg W) :
    getAggregateFunctionSignatures
        (registerAggregateFunction name signatures factory s).2 name =
      some signatures := by
  unfold getAggregateFunctionSignatures
  rw [getAggregateFunctionEntry_register_same]

/-- C5: legacy fallback. When `name` is absent from the new catalog and the legacy
resolver returns the operator `op` for `(name, step, argTypes, resultType)`,
`Aggregate::create` returns `op` without error, and its only effect on the world
is that of this one call of the legacy resolver: no factory of the new catalog
runs. -/
theorem create_legacy_fallback (s : Process Sig Ty Agg W) (name : String)
    (step : Step) (argTypes : List Ty) (resultType : Ty) (op : Agg)
    (habsent : name ∉ s.functions.keys)
    (hlegacy : (s.AggregateFunctions.Create name step argTypes resultType s.world).1 =
      Except.ok (some op)) :
    Aggregate.create name step argTypes resultType s =
      (Except.ok (some op),
        { s with
          world := (s.AggregateFunctions.Create name step argTypes resultType s.world).2 }) := by
  have hnone := (getAggregateFunctionEntry_eq_none_iff s name).2 habsent
  unfold Aggregate.create
  rw [hnone]
  simp only [hlegacy]

theorem create_legacy_fallback_witness :
    ("bar" ∉ fooProcess.functions.keys ∧
      (fooProcess.AggregateFunctions.Create "bar" Step.kFinal [5] 6 fooProcess.world).1 =
        Except.ok (some 7)) ∧
    Aggregate.create "bar" Step.kFinal [5] 6 fooProcess =
      (Except.ok (some 7),
        { fooProcess with
          world :=
            (fooProcess.AggregateFunctions.Create "bar" Step.kFinal [5] 6
              fooProcess.world).2 }) :=
  ⟨⟨by decide, rfl⟩,
    create_legacy_fallback fooProcess "bar" Step.kFinal [5] 6 7 (by decide) rfl⟩

/-- C6: precedence of the new catalog. When `name` has an entry in the new catalog,
`Aggregate::create(name, step, argTypes, resultType)` is exactly the call of that
entry's factory, whatever the legacy catalog is: outcome and world are those of
the factory, so the legacy resolver is not called. -/
theorem create_new_catalog_precedence (s : Process Sig Ty Agg W) (name : String)
    (step : Step) (argTypes : List Ty) (resultType : Ty)
    (hpresent : name ∈ s.functions.keys) :
    ∃ entry : FunctionEntry Sig Ty Agg W, (name, entry) ∈ s.functions.entries ∧
      ∀ legacy : AggregateFunctionRegistry Ty Agg W,
        Aggregate.create name step argTypes resultType
            { s with AggregateFunctions := legacy } =
          ((entry.factory step argTypes resultType s.world).1,
            { s with
              AggregateFunctions := legacy
              world := (entry.factory step argTypes resultType s.world).2 }) := by
  obtain ⟨entry, hfind, hmem⟩ := getAggregateFunctionEntry_of_mem_keys s name hpresent
  refine ⟨entry, hmem, ?_⟩
  intro legacy
  have hfind2 : getAggregateFunctionEntry { s with AggregateFunctions := legacy } name =
      some entry := by
    rw [getAggregateFunctionEntry_eq_find]
    rw [getAggregateFunctionEntry_eq_find] at hfind
    exact hfind
  unfold Aggregate.create
  rw [hfind2]

theorem create_new_catalog_precedence_witness :
    "foo" ∈ fooProcess.functions.keys ∧
    ∃ entry : FunctionEntry Nat Nat Nat (List String),
      ("foo", entry) ∈ fooProcess.functions.entries ∧
      ∀ legacy : AggregateFunctionRegistry Nat Nat (List String),
        Aggregate.create "foo" Step.kPartial [5] 6
            { fooProcess with AggregateFunctions := legacy } =
          ((entry.factory Step.kPartial [5] 6 fooProcess.world).1,
            { fooProcess with
              AggregateFunctions := legacy
              world := (entry.factory Step.kPartial [5] 6 fooProcess.world).2 }) :=
  ⟨by decide,
    create_new_catalog_precedence fooProcess "foo" Step.kPartial [5] 6 (by decide)⟩

/-- C7: `isRawInput(step)` is true exactly when `step` is Partial or Single; it is
true for Partial and Single and false for Intermediate and Final. -/
theorem isRawInput_iff (step : Step) :
    (isRawInput step = true ↔ step = Step.kPartial ∨ step = Step.kSingle) ∧
      isRawInput Step.kPartial = true ∧ isRawInput Step.kSingle = true ∧
      isRawInput Step.kIntermediate = false ∧ isRawInput Step.kFinal = false := by
  cases step <;> decide

/-- C8: `isPartialOutput(step)` is true exactly when `step` is Partial or
Intermediate; it is true for Partial and Intermediate and false for Single and
Final. -/
theorem isPartialOutput_iff (step : Step) :
    (isPartialOutput step = true ↔ step = Step.kPartial ∨ step = Step.kIntermediate) ∧
      isPartialOutput Step.kPartial = true ∧ isPartialOutput Step.kIntermediate = true ∧
      isPartialOutput Step.kSingle = false ∧ isPartialOutput Step.kFinal = false := by
  cases step <;> decide

/-- C9: `getAggregateFunctionSignatures(name)` is absent exactly when `name` has no
entry in the new catalog, whatever the legacy catalog and the world are; its
result does not change when the legacy catalog is replaced; and a name registered
with the empty signature list yields the present empty sequence, not absent. -/
theorem signatures_absent_iff (s : Process Sig Ty Agg W) (name : String) :
    (∀ (legacy : AggregateFunctionRegistry Ty Agg W) (w : W),
        getAggregateFunctionSignatures
            { s with AggregateFunctions := legacy, world := w } name = none ↔
          name ∉ s.functions.keys) ∧
      (∀ (legacy : AggregateFunctionRegistry Ty Agg W) (w : W),
        getAggregateFunctionSignatures
            { s with AggregateFunctions := legacy, world := w } name =
          getAggregateFunctionSignatures s name) ∧
      (∀ factory : AggregateFunctionFactory Ty Agg W,
        getAggregateFunctionSignatures
            (registerAggregateFunction name [] factory s).2 name = some [] ∧
          getAggregateFunctionSignatures
            (registerAggregateFunction name [] factory s).2 name ≠ none) := by
  have hindep : ∀ (legacy : AggregateFunctionRegistry Ty Agg W) (w : W),
      getAggregateFunctionSignatures
          { s with AggregateFunctions := legacy, world := w } name =
        getAggregateFunctionSignatures s name := by
    intro legacy w
    unfold getAggregateFunctionSignatures
    rw [getAggregateFunctionEntry_eq_find, getAggregateFunctionEntry_eq_find]
  have hiff : getAggregateFunctionSignatures s name = none ↔ name ∉ s.functions.keys := by
    rw [← getAggregateFunctionEntry_eq_none_iff]
    unfold getAggregateFunctionSignatures
    cases getAggregateFunctionEntry s name <;> simp
  refine ⟨?_, hindep, ?_⟩
  · intro legacy w
    rw [hindep legacy w]
    exact hiff
  · intro factory
    rw [getAggregateFunctionSignatures_register_same]
    exact ⟨rfl, fun h => Option.noConfusion h⟩

theorem signatures_absent_iff_witness :
    getAggregateFunctionSignatures fooProcess "bar" = none ∧
      (Aggregate.create "bar" Step.kSingle [5] 6 fooProcess).1 = Except.ok (some 7) ∧
      getAggregateFunctionSignatures
        (registerAggregateFunction "bar" []
          (loggingFactory "bar" (Except.ok none)) fooProcess).2 "bar" = some [] :=
  ⟨((signatures_absent_iff fooProcess "bar").1 sampleLegacy []).2 (by decide), rfl,
    ((signatures_absent_iff fooProcess "bar").2.2
      (loggingFactory "bar" (Except.ok none))).1⟩

/-- C10: re-registration replaces. After registering `name` with signatures `s1` and
then with signatures `s2`, `getAggregateFunctionSignatures(name)` is exactly `s2`:
its elements are those of `s2`, it is neither `s1 ++ s2` nor `s2 ++ s1` when `s1`
is not empty, and the catalog holds exactly one entry for `name`. -/
theorem signatures_after_reregister (s : Process Sig Ty Agg W) (name : String)
    (s1 s2 : List Sig) (f1 f2 : AggregateFunctionFactory Ty Agg W) :
    getAggregateFunctionSignatures
        (registerAggregateFunction name s2 f2
          (registerAggregateFunction name s1 f1 s).2).2 name = some s2 ∧
      (∀ sigs, getAggregateFunctionSignatures
          (registerAggregateFunction name s2 f2
            (registerAggregateFunction name s1 f1 s).2).2 name = some sigs →
        ∀ x, x ∈ sigs ↔ x ∈ s2) ∧
      (s1 ≠ [] →
        getAggregateFunctionSignatures
            (registerAggregateFunction name s2 f2
              (registerAggregateFunction name s1 f1 s).2).2 name ≠ some (s1 ++ s2) ∧
          getAggregateFunctionSignatures
            (registerAggregateFunction name s2 f2
              (registerAggregateFunction name s1 f1 s).2).2 name ≠ some (s2 ++ s1)) ∧
      (registerAggregateFunction name s2 f2
        (registerAggregateFunction name s1 f1 s).2).2.functions.count name = 1 := by
  rw [getAggregateFunctionSignatures_register_same]
  refine ⟨rfl, ?_, ?_, count_register_same _ _ _ _⟩
  · intro sigs h x
    rw [Option.some.injEq] at h
    rw [h]
  · intro hne
    constructor
    · intro h
      rw [Option.some.injEq] at h
      exact hne (List.append_left_eq_self.1 h.symm)
    · intro h
      rw [Option.some.injEq] at h
      exact hne (List.append_right_eq_self.1 h.symm)

theorem signatures_after_reregister_witness :
    getAggregateFunctionSignatures
        (registerAggregateFunction "foo" [2, 9]
          (loggingFactory "second" (Except.ok (some 4))) fooProcess).2 "foo" =
      some [2, 9] ∧
    (registerAggregateFunction "foo" [2, 9]
      (loggingFactory "second" (Except.ok (some 4))) fooProcess).2.functions.count "foo" = 1 :=
  ⟨(signatures_after_reregister freshProcess "foo" [1, 2] [2, 9]
      (loggingFactory "foo" (Except.ok (some 3)))
      (loggingFactory "second" (Except.ok (some 4)))).1,
    (signatures_after_reregister freshProcess "foo" [1, 2] [2, 9]
      (loggingFactory "foo" (Except.ok (some 3)))
      (loggingFactory "second" (Except.ok (some 4)))).2.2.2⟩

/-- C11: factory failure propagates unchanged. When `entry` is the entry stored under
`name`, whatever the legacy catalog is: if the factory fails with the error `e`,
`Aggregate::create` fails with the same `e`; if the factory returns null,
`Aggregate::create` returns null and not the "Aggregate function not registered"
error; in both cases the world is the one left by the factory, so the legacy
resolver is not called. -/
theorem create_factory_failure_propagates (s : Process Sig Ty Agg W) (name : String)
    (step : Step) (argTypes : List Ty) (resultType : Ty)
    (entry : FunctionEntry Sig Ty Agg W) (hentry : (name, entry) ∈ s.functions.entries)
    (legacy : AggregateFunctionRegistry Ty Agg W) :
    (∀ e, (entry.factory step argTypes resultType s.world).1 = Except.error e →
        Aggregate.create name step argTypes resultType
            { s with AggregateFunctions := legacy } =
          (Except.error e,
            { s with
              AggregateFunctions := legacy
              world := (entry.factory step argTypes resultType s.world).2 })) ∧
      ((entry.factory step argTypes resultType s.world).1 = Except.ok none →
        Aggregate.create name step argTypes resultType
            { s with AggregateFunctions := legacy } =
          (Except.ok none,
            { s with
              AggregateFunctions := legacy
              world := (entry.factory step argTypes resultType s.world).2 }) ∧
        (Aggregate.create name step argTypes resultType
            { s with AggregateFunctions := legacy }).1 ≠
          Except.error
            (Exception.veloxUserError ("Aggregate function not registered: " ++ name))) := by
  have hfind : getAggregateFunctionEntry { s with AggregateFunctions := legacy } name =
      some entry :=
    getAggregateFunctionEntry_of_mem { s with AggregateFunctions := legacy } name entry hentry
  have hcreate := create_of_entry { s with AggregateFunctions := legacy } name step
    argTypes resultType entry hfind
  constructor
  · intro e he
    rw [hcreate]
    simp only [he]
  · intro hnull
    rw [hcreate]
    simp only [hnull]
    exact ⟨trivial, fun h => Except.noConfusion h⟩

theorem create_factory_failure_propagates_witness :
    ("bad", (⟨[1], loggingFactory "bad" (Except.error (Exception.other "unsupported type"))⟩ :
        FunctionEntry Nat Nat Nat (List String))) ∈ failingProcess.functions.entries ∧
      Aggregate.create "bad" Step.kFinal [5] 6 failingProcess =
        (Except.error (Exception.other "unsupported type"),
          { failingProcess with world := ["bad"] }) :=
  ⟨List.Mem.head _,
    (create_factory_failure_propagates failingProcess "bad" Step.kFinal [5] 6
      ⟨[1], loggingFactory "bad" (Except.error (Exception.other "unsupported type"))⟩
      (List.Mem.head _) sampleLegacy).1 (Exception.other "unsupported type") rfl⟩

/-- C12: `registerAggregateFunction` returns true for every name, signature list,
factory and prior state: also for a name that is already registered, for the
empty name and for the empty signature list. -/
theorem register_returns_true (s : Process Sig Ty Agg W) (name : String)
    (signatures : List Sig) (factory : AggregateFunctionFactory Ty Agg W) :
    (registerAggregateFunction name signatures factory s).1 = true ∧
      (∀ (s1 : List Sig) (f1 : AggregateFunctionFactory Ty Agg W),
        (registerAggregateFunction name signatures factory
          (registerAggregateFunction name s1 f1 s).2).1 = true) ∧
      (registerAggregateFunction "" [] factory s).1 = true := by
  refine ⟨?_, ?_, ?_⟩
  · unfold registerAggregateFunction
    rfl
  · intro s1 f1
    unfold registerAggregateFunction
    rfl
  · unfold registerAggregateFunction
    rfl

/-- C14: registration is idempotent. Calling
`registerAggregateFunction(name, signatures, factory)` twice in a row leaves the
process in the same state as calling it once, so every lookup of every name gives
the same entry. -/
theorem register_idempotent (s : Process Sig Ty Agg W) (name : String)
    (signatures : List Sig) (factory : AggregateFunctionFactory Ty Agg W) :
    (registerAggregateFunction name signatures factory
        (registerAggregateFunction name signatures factory s).2).2 =
        (registerAggregateFunction name signatures factory s).2 ∧
      (∀ n : String,
        getAggregateFunctionEntry
            (registerAggregateFunction name signatures factory
              (registerAggregateFunction name signatures factory s).2).2 n =
          getAggregateFunctionEntry
            (registerAggregateFunction name signatures factory s).2 n) := by
  have h := register_register_same s name signatures signatures factory factory
  refine ⟨h, ?_⟩
  intro n
  rw [h]

/-- C15: the pair `(isRawInput(step), isPartialOutput(step))` is `(true, true)` for
Partial, `(true, false)` for Single, `(false, true)` for Intermediate and
`(false, false)` for Final; the map from the step to this pair is injective and
onto the four boolean pairs. -/
theorem step_predicates_determine_step :
    (isRawInput Step.kPartial, isPartialOutput Step.kPartial) = (true, true) ∧
      (isRawInput Step.kSingle, isPartialOutput Step.kSingle) = (true, false) ∧
      (isRawInput Step.kIntermediate, isPartialOutput Step.kIntermediate) = (false, true) ∧
      (isRawInput Step.kFinal, isPartialOutput Step.kFinal) = (false, false) ∧
      Function.Injective (fun step : Step => (isRawInput step, isPartialOutput step)) ∧
      Function.Surjective (fun step : Step => (isRawInput step, isPartialOutput step)) := by
  refine ⟨by decide, by decide, by decide, by decide, ?_, ?_⟩
  · intro a b h
    cases a <;> cases b <;> first | rfl | exact absurd h (by decide)
  · rintro ⟨raw, part⟩
    cases raw <;> cases part
    · exact ⟨Step.kFinal, rfl⟩
    · exact ⟨Step.kIntermediate, rfl⟩
    · exact ⟨Step.kSingle, rfl⟩
    · exact ⟨Step.kPartial, rfl⟩

/-- C16: frame of registration. For names `n` and `m` that differ as strings,
`registerAggregateFunction(n, signatures, factory)` leaves the entry of `m`
unchanged: its stored entry, `getAggregateFunctionSignatures(m)`, and the outcome
and effect of `Aggregate::create(m, ...)` are the same before and after, and `m`
is a key afterwards exactly when it was one before. -/
theorem register_frame (s : Process Sig Ty Agg W) (n m : String)
    (signatures : List Sig) (factory : AggregateFunctionFactory Ty Agg W)
    (step : Step) (argTypes : List Ty) (resultType : Ty) (hdiff : m ≠ n) :
    getAggregateFunctionEntry (registerAggregateFunction n signatures factory s).2 m =
        getAggregateFunctionEntry s m ∧
      getAggregateFunctionSignatures (registerAggregateFunction n signatures factory s).2 m =
        getAggregateFunctionSignatures s m ∧
      (Aggregate.create m step argTypes resultType
          (registerAggregateFunction n signatures factory s).2).1 =
        (Aggregate.create m step argTypes resultType s).1 ∧
      (Aggregate.create m step argTypes resultType
          (registerAggregateFunction n signatures factory s).2).2.world =
        (Aggregate.create m step argTypes resultType s).2.world ∧
      (m ∈ (registerAggregateFunction n signatures factory s).2.functions.keys ↔
        m ∈ s.functions.keys) := by
  have hentry := getAggregateFunctionEntry_register_other s n m signatures factory hdiff
  have hcreate := create_congr s (registerAggregateFunction n signatures factory s).2 m
    step argTypes resultType hentry rfl rfl
  refine ⟨hentry, getAggregateFunctionSignatures_congr _ _ m hentry, hcreate.1,
    hcreate.2, ?_⟩
  unfold FunctionMap.keys registerAggregateFunction FunctionMap.assign
  rw [mem_keys_assignEntry_iff]
  constructor
  · rintro (h | h)
    · exact h
    · exact absurd h hdiff
  · exact fun h => Or.inl h

theorem register_frame_witness :
    "foo" ≠ "Foo" ∧
      getAggregateFunctionSignatures
          (registerAggregateFunction "Foo" [8]
            (loggingFactory "Foo" (Except.ok (some 4))) fooProcess).2 "foo" =
        getAggregateFunctionSignatures fooProcess "foo" ∧
      (Aggregate.create "foo" Step.kSingle [5] 6
          (registerAggregateFunction "Foo" [8]
            (loggingFactory "Foo" (Except.ok (some 4))) fooProcess).2).1 =
        (Aggregate.create "foo" Step.kSingle [5] 6 fooProcess).1 :=
  ⟨by decide,
    (register_frame fooProcess "Foo" "foo" [8] (loggingFactory "Foo" (Except.ok (some 4)))
      Step.kSingle [5] 6 (by decide)).2.1,
    (register_frame fooProcess "Foo" "foo" [8] (loggingFactory "Foo" (Except.ok (some 4)))
      Step.kSingle [5] 6 (by decide)).2.2.1⟩

/-- C17: entries are never removed. In the state reached from the empty catalog by
any sequence of `registerAggregateFunction`, `getAggregateFunctionSignatures` and
`Aggregate::create` calls, the entry of a name is the one given by the most
recent `registerAggregateFunction` call with that name;
`getAggregateFunctionSignatures` is present exactly when such a call was made,
and it stays present after any further calls. -/
theorem entries_never_removed (legacy : AggregateFunctionRegistry Ty Agg W) (w : W)
    (calls : List (Call Sig Ty Agg W)) (name : String) :
    getAggregateFunctionEntry (runCalls calls ⟨FunctionMap.empty, legacy, w⟩) name =
        lastRegistered calls name ∧
      getAggregateFunctionSignatures (runCalls calls ⟨FunctionMap.empty, legacy, w⟩) name =
        (lastRegistered calls name).map (fun entry => entry.signatures) ∧
      ((getAggregateFunctionSignatures
            (runCalls calls ⟨FunctionMap.empty, legacy, w⟩) name).isSome = true ↔
        ∃ (signatures : List Sig) (factory : AggregateFunctionFactory Ty Agg W),
          Call.register name signatures factory ∈ calls) ∧
      (∀ more : List (Call Sig Ty Agg W),
        (getAggregateFunctionSignatures
            (runCalls calls ⟨FunctionMap.empty, legacy, w⟩) name).isSome = true →
        (getAggregateFunctionSignatures
            (runCalls (calls ++ more) ⟨FunctionMap.empty, legacy, w⟩) name).isSome = true) := by
  have hsigs : ∀ l : List (Call Sig Ty Agg W),
      (getAggregateFunctionSignatures
          (runCalls l ⟨FunctionMap.empty, legacy, w⟩) name).isSome = true ↔
        ∃ (signatures : List Sig) (factory : AggregateFunctionFactory Ty Agg W),
          Call.register name signatures factory ∈ l := by
    intro l
    have hmap : ∀ o : Option (FunctionEntry Sig Ty Agg W),
        (o.map (fun entry => entry.signatures)).isSome = o.isSome := by
      intro o
      cases o <;> rfl
    rw [getAggregateFunctionSignatures_eq_map, getAggregateFunctionEntry_runCalls, hmap]
    exact lastRegistered_isSome_iff l name
  refine ⟨getAggregateFunctionEntry_runCalls calls legacy w name, ?_, hsigs calls, ?_⟩
  · rw [getAggregateFunctionSignatures_eq_map, getAggregateFunctionEntry_runCalls]
  · intro more h
    obtain ⟨signatures, factory, hmem⟩ := (hsigs calls).1 h
    exact (hsigs (calls ++ more)).2 ⟨signatures, factory, List.mem_append_left _ hmem⟩

theorem entries_never_removed_witness :
    getAggregateFunctionSignatures
        (runCalls
          [Call.register "foo" [1, 2] (loggingFactory "foo" (Except.ok (some 3))),
            Call.create "foo" Step.kSingle [5] 6,
            Call.register "foo" [9] (loggingFactory "second" (Except.ok none)),
            Call.getSignatures "foo",
            Call.create "nonexistent" Step.kFinal [] 6]
          freshProcess) "foo" =
      some [9] :=
  (entries_never_removed sampleLegacy []
    [Call.register "foo" [1, 2] (loggingFactory "foo" (Except.ok (some 3))),
      Call.create "foo" Step.kSingle [5] 6,
      Call.register "foo" [9] (loggingFactory "second" (Except.ok none)),
      Call.getSignatures "foo",
      Call.create "nonexistent" Step.kFinal [] 6] "foo").2.1

/-- C18: registrations of distinct names commute up to lookups. For names `a ≠ b`,
registering `a` and then `b` gives a catalog in which every name has the same
entry (signatures and factory), the same `getAggregateFunctionSignatures` result
and the same `Aggregate::create` outcome and effect as in the catalog obtained by
registering `b` and then `a`. -/
theorem register_commute (s : Process Sig Ty Agg W) (a b : String) (sa sb : List Sig)
    (fa fb : AggregateFunctionFactory Ty Agg W) (hdiff : a ≠ b) (n : String)
    (step : Step) (argTypes : List Ty) (resultType : Ty) :
    getAggregateFunctionEntry
        (registerAggregateFunction b sb fb (registerAggregateFunction a sa fa s).2).2 n =
        getAggregateFunctionEntry
          (registerAggregateFunction a sa fa (registerAggregateFunction b sb fb s).2).2 n ∧
      getAggregateFunctionSignatures
        (registerAggregateFunction b sb fb (registerAggregateFunction a sa fa s).2).2 n =
        getAggregateFunctionSignatures
          (registerAggregateFunction a sa fa (registerAggregateFunction b sb fb s).2).2 n ∧
      (Aggregate.create n step argTypes resultType
          (registerAggregateFunction b sb fb (registerAggregateFunction a sa fa s).2).2).1 =
        (Aggregate.create n step argTypes resultType
          (registerAggregateFunction a sa fa (registerAggregateFunction b sb fb s).2).2).1 ∧
      (Aggregate.create n step argTypes resultType
          (registerAggregateFunction b sb fb
            (registerAggregateFunction a sa fa s).2).2).2.world =
        (Aggregate.create n step argTypes resultType
          (registerAggregateFunction a sa fa
            (registerAggregateFunction b sb fb s).2).2).2.world := by
  have hentry : getAggregateFunctionEntry
      (registerAggregateFunction b sb fb (registerAggregateFunction a sa fa s).2).2 n =
      getAggregateFunctionEntry
        (registerAggregateFunction a sa fa (registerAggregateFunction b sb fb s).2).2 n := by
    simp only [getAggregateFunctionEntry_register]
    by_cases hb : b = n
    · have ha : ¬ a = n := fun e => hdiff (e.trans hb.symm)
      rw [if_pos hb, if_neg ha, if_pos hb]
    · rw [if_neg hb, if_neg hb]
  have hcreate := create_congr
    (registerAggregateFunction a sa fa (registerAggregateFunction b sb fb s).2).2
    (registerAggregateFunction b sb fb (registerAggregateFunction a sa fa s).2).2
    n step argTypes resultType hentry rfl rfl
  exact ⟨hentry, getAggregateFunctionSignatures_congr _ _ n hentry, hcreate.1, hcreate.2⟩

theorem register_commute_witness :
    "foo" ≠ "bar" ∧
      getAggregateFunctionSignatures
          (registerAggregateFunction "bar" [8] (loggingFactory "bar" (Except.ok (some 4)))
            (registerAggregateFunction "foo" [1, 2]
              (loggingFactory "foo" (Except.ok (some 3))) freshProcess).2).2 "foo" =
        getAggregateFunctionSignatures
          (registerAggregateFunction "foo" [1, 2] (loggingFactory "foo" (Except.ok (some 3)))
            (registerAggregateFunction "bar" [8]
              (loggingFactory "bar" (Except.ok (some 4))) freshProcess).2).2 "foo" :=
  ⟨by decide,
    (register_commute freshProcess "foo" "bar" [1, 2] [8]
      (loggingFactory "foo" (Except.ok (some 3))) (loggingFactory "bar" (Except.ok (some 4)))
      (by decide) "foo" Step.kSingle [5] 6).2.1⟩

end claims

end velox.exec
